import Mathlib

/-!
Shallow embedding of `src/backend/predictor.py` (NILM predictor).

Numeric values (Python floats) are idealised as rationals `ℚ`; Python
exceptions are modelled by `Option`/`Except`; the trained scikit-learn model
is opaque in the source and is modelled as an abstract pair of functions
(`predict`, `predict_proba`).
-/
/-- Device-state triple `{bulb, fan, iron}`. -/
structure DeviceStates where
  bulb : Bool
  fan : Bool
  iron : Bool
deriving DecidableEq, Repr

/-- The static dict `LABEL_TO_DEVICE_STATES` from `predictor.py`, as an
association list mirroring the Python dict entries in order. -/
def LABEL_TO_DEVICE_STATES : List (Int × DeviceStates) :=
  [ (0, ⟨false, false, false⟩),
    (1, ⟨true,  false, false⟩),
    (2, ⟨false, true,  false⟩),
    (3, ⟨true,  true,  false⟩),
    (4, ⟨false, false, true⟩),
    (5, ⟨true,  false, true⟩),
    (6, ⟨false, true,  true⟩),
    (7, ⟨true,  true,  true⟩) ]

/-- `LABEL_TO_DEVICE_STATES.get(label, {"bulb": False, "fan": False, "iron": False})`. -/
def deviceStatesFor (label : Int) : DeviceStates :=
  (List.lookup label LABEL_TO_DEVICE_STATES).getD ⟨false, false, false⟩

/-- `LABEL_TO_DEVICE_STATES.get(x, {}).get('bulb', False)` from `predict_from_dataframe`. -/
def bulbDefault (x : Int) : Bool :=
  match List.lookup x LABEL_TO_DEVICE_STATES with
  | some ds => ds.bulb
  | none => false

/-- `LABEL_TO_DEVICE_STATES.get(x, {}).get('fan', False)` from `predict_from_dataframe`. -/
def fanDefault (x : Int) : Bool :=
  match List.lookup x LABEL_TO_DEVICE_STATES with
  | some ds => ds.fan
  | none => false

/-- `LABEL_TO_DEVICE_STATES.get(x, {}).get('iron', False)` from `predict_from_dataframe`. -/
def ironDefault (x : Int) : Bool :=
  match List.lookup x LABEL_TO_DEVICE_STATES with
  | some ds => ds.iron
  | none => false

/-- A measurement record: a Python dict from feature name to a numeric value,
where `none` models a Python `None` value stored under the key. -/
abbrev Record := List (String × Option ℚ)

/-- One loop iteration of feature building:
`value = data.get(col, 0.0); if value is None: value = 0.0`. -/
def getFeatureValue (data : Record) (col : String) : ℚ :=
  match List.lookup col data with
  | none => 0
  | some none => 0
  | some (some v) => v

/-- The feature-vector construction loop of `predict_single` (lines 74-80):
read each configured feature name from the record, in order. -/
def buildFeatures (cols : List String) (data : Record) : List ℚ :=
  cols.map (getFeatureValue data)

/-- The opaque trained classifier: `model.predict` on a single-row matrix
yields one integer label, `model.predict_proba` yields one row of class
probabilities. -/
structure Model where
  predict : List ℚ → Int
  predict_proba : List ℚ → List ℚ

/-- The fields of a loaded `NILMPredictor` relevant to prediction. -/
structure NILMPredictor where
  model : Model
  feature_columns : List String
  class_labels : List Int

/-- One entry of the formatted probability list. -/
structure ProbEntry where
  label : Int
  probability : ℚ
  device_states : DeviceStates
deriving DecidableEq, Repr

/-- The dictionary returned by `predict_single`. -/
structure PredictionResult where
  label : Int
  device_states : DeviceStates
  probabilities : List ProbEntry
  confidence : ℚ
deriving DecidableEq, Repr

/-- Python `max` over a list; `none` on the empty list (Python raises). -/
def listMax : List ℚ → Option ℚ
  | [] => none
  | x :: xs => some (xs.foldl max x)

/-- The `for i, prob in enumerate(probabilities)` loop of `predict_single`
(lines 95-106): index `class_labels[i]` (an out-of-range index raises, hence
`none`) and pair each probability with its class label and device states. -/
def mkProbList (class_labels : List Int) : Nat → List ℚ → Option (List ProbEntry)
  | _, [] => some []
  | i, p :: ps =>
    match class_labels.get? i, mkProbList class_labels (i + 1) ps with
    | some cl, some rest =>
        some ({ label := cl, probability := p,
                device_states := deviceStatesFor cl } :: rest)
    | _, _ => none

/-- Insert an entry into a descending-sorted list, after all strictly larger
probabilities and before equal ones (stable placement). -/
def insertDesc (e : ProbEntry) : List ProbEntry → List ProbEntry
  | [] => [e]
  | x :: xs =>
    if e.probability < x.probability then x :: insertDesc e xs
    else e :: x :: xs

/-- `sorted(prob_list, key=lambda x: x['probability'], reverse=True)`:
a stable sort by probability descending. -/
def sortByProbDesc (l : List ProbEntry) : List ProbEntry :=
  l.foldr insertDesc []

/-- `NILMPredictor.predict_single` (lines 61-116). -/
def predict_single (p : NILMPredictor) (data : Record) : Option PredictionResult :=
  let features := buildFeatures p.feature_columns data
  let label := p.model.predict features
  let probabilities := p.model.predict_proba features
  let device_states := deviceStatesFor label
  match mkProbList p.class_labels 0 probabilities with
  | none => none
  | some prob_list =>
    match listMax probabilities with
    | none => none
    | some conf =>
      some { label := label, device_states := device_states,
             probabilities := sortByProbDesc prob_list, confidence := conf }

/-- `NILMPredictor.predict_batch` (line 128):
`[self.predict_single(data) for data in data_list]`, a list comprehension in
which any exception aborts the whole comprehension. -/
def predict_batch (p : NILMPredictor) (data_list : List Record) :
    Option (List PredictionResult) :=
  data_list.mapM (predict_single p)

/-- A pandas cell: `na` models `NaN` (a missing value), `num` a numeric value,
`bool` a boolean value. -/
inductive Cell where
  | na : Cell
  | num : ℚ → Cell
  | bool : Bool → Cell
deriving DecidableEq, Repr

/-- A pandas DataFrame: a fixed column list and rows of cells aligned with it. -/
structure DataFrame where
  columns : List String
  rows : List (List Cell)
deriving DecidableEq, Repr

/-- Index of the first column with the given name, `none` if absent. -/
def colIdx (c : String) : List String → Option Nat
  | [] => none
  | x :: xs => if x == c then some 0 else (colIdx c xs).map (· + 1)

/-- The float a cell contributes to `.fillna(0).values`: `NaN` becomes `0`,
booleans coerce numerically. -/
def cellValue0 : Cell → ℚ
  | Cell.na => 0
  | Cell.num q => q
  | Cell.bool b => if b then 1 else 0

/-- `df[self.feature_columns].fillna(0).values` (line 141): selecting a column
absent from the table raises a `KeyError` (`none`); `NaN` cells become `0`. -/
def featureMatrix (df : DataFrame) (cols : List String) :
    Option (List (List ℚ)) :=
  (cols.mapM fun c => colIdx c df.columns).map fun idxs =>
    df.rows.map fun row => idxs.map fun i => cellValue0 (row.getD i Cell.na)

/-- `result_df[name] = vals`: overwrites an existing column in place, otherwise
appends a new column on the right. -/
def DataFrame.setCol (df : DataFrame) (name : String) (vals : List Cell) :
    DataFrame :=
  match colIdx name df.columns with
  | some i =>
    { columns := df.columns,
      rows := List.zipWith (fun r v => r.set i v) df.rows vals }
  | none =>
    { columns := df.columns ++ [name],
      rows := List.zipWith (fun r v => r ++ [v]) df.rows vals }

/-- An integer label stored as a numeric cell. -/
def intCell (l : Int) : Cell := Cell.num (l : ℚ)

/-- `NILMPredictor.predict_from_dataframe` (lines 130-153). -/
def predict_from_dataframe (p : NILMPredictor) (df : DataFrame) :
    Option DataFrame :=
  (featureMatrix df p.feature_columns).map fun X =>
    let predictions := X.map p.model.predict
    let df1 := df.setCol "predicted_label" (predictions.map intCell)
    let df2 := df1.setCol "bulb" (predictions.map fun l => Cell.bool (bulbDefault l))
    let df3 := df2.setCol "fan" (predictions.map fun l => Cell.bool (fanDefault l))
    df3.setCol "iron" (predictions.map fun l => Cell.bool (ironDefault l))

/-- The value a cell presents to dict-style access: `NaN` behaves as a
null-like value, numbers and booleans as their numeric value. -/
def cellToOpt : Cell → Option ℚ
  | Cell.na => none
  | Cell.num q => some q
  | Cell.bool b => some (if b then 1 else 0)

/-- One DataFrame row viewed as a measurement record, for comparing the
column-wise path with `predict_single`. -/
def rowRecord (cols : List String) (row : List Cell) : Record :=
  List.zip cols (row.map cellToOpt)

/-- The deserialized pickle artifact: `model`, `feature_columns`,
`class_labels` (lines 53-55). -/
structure ArtifactFile where
  model : Model
  feature_columns : List String
  class_labels : List Int

/-- The filesystem as seen by `load_model`: which paths hold an artifact. -/
def FileSystem : Type := String → Option ArtifactFile

/-- `NILMPredictor.load_model` (lines 45-55): raise `FileNotFoundError` when
the path does not exist, otherwise read the artifact. -/
def load_model (fs : FileSystem) (path : String) : Except String ArtifactFile :=
  match fs path with
  | none => Except.error ("Model file not found: " ++ path)
  | some a => Except.ok a

/-- `NILMPredictor.__init__` (lines 27-43): store the path and immediately call
`load_model`, so construction fails before any prediction can be attempted. -/
def NILMPredictor.init (fs : FileSystem) (path : String) :
    Except String NILMPredictor :=
  match load_model fs path with
  | Except.error e => Except.error e
  | Except.ok a =>
    Except.ok { model := a.model, feature_columns := a.feature_columns,
                class_labels := a.class_labels }

/-- A concrete toy model used to instantiate the theorems. -/
def wModel : Model :=
  { predict := fun _ => 3,
    predict_proba := fun _ => [0, 1, 0] }

/-- A concrete predictor instance used to instantiate the theorems. -/
def wPredictor : NILMPredictor :=
  { model := wModel,
    feature_columns := ["active_power"],
    class_labels := [0, 1, 2] }

/-- A concrete measurement record used to instantiate the theorems. -/
def wRecord : Record := [("active_power", some 100)]

/-- The prediction result of `wPredictor` on `wRecord`. -/
def wResult : PredictionResult :=
  { label := 3,
    device_states := ⟨true, true, false⟩,
    probabilities :=
      [ { label := 1, probability := 1, device_states := ⟨true, false, false⟩ },
        { label := 0, probability := 0, device_states := ⟨false, false, false⟩ },
        { label := 2, probability := 0, device_states := ⟨false, true, false⟩ } ],
    confidence := 1 }

/-- A filesystem on which no artifact path exists. -/
def emptyFS : FileSystem := fun _ => none

/-- A concrete table used to instantiate the theorems: one feature column,
one ordinary cell and one missing (`NaN`) cell. -/
def wDF : DataFrame :=
  { columns := ["active_power"], rows := [[Cell.num 100], [Cell.na]] }

/-- The output table of `predict_from_dataframe` on `wPredictor` and `wDF`. -/
def wOut : DataFrame :=
  { columns := ["active_power", "predicted_label", "bulb", "fan", "iron"],
    rows :=
      [ [Cell.num 100, Cell.num 3, Cell.bool true, Cell.bool true, Cell.bool false],
        [Cell.na, Cell.num 3, Cell.bool true, Cell.bool true, Cell.bool false] ] }

/-- A predictor whose feature column collides with a device column name. -/
def cPredictor : NILMPredictor :=
  { model := wModel, feature_columns := ["bulb"], class_labels := [0, 1, 2] }

/-- A table that already has a column named `bulb`. -/
def cDF : DataFrame := { columns := ["bulb"], rows := [[Cell.num 5]] }

/-- The output of `predict_from_dataframe` on `cPredictor` and `cDF`: the
existing `bulb` column is overwritten in place, not appended. -/
def cOut : DataFrame :=
  { columns := ["bulb", "predicted_label", "fan", "iron"],
    rows := [[Cell.bool true, Cell.num 3, Cell.bool true, Cell.bool false]] }

theorem insertDesc_perm (e : ProbEntry) (l : List ProbEntry) :
    List.Perm (insertDesc e l) (e :: l) := by
  induction l with
  | nil => simp [insertDesc]
  | cons x xs ih =>
    simp only [insertDesc]
    split
    · exact (ih.cons x).trans (List.Perm.swap e x xs)
    · exact List.Perm.refl _

theorem sortByProbDesc_perm (l : List ProbEntry) :
    List.Perm (sortByProbDesc l) l := by
  induction l with
  | nil => simp [sortByProbDesc]
  | cons x xs ih =>
    simp only [sortByProbDesc, List.foldr_cons]
    exact (insertDesc_perm x _).trans (ih.cons x)

theorem mem_insertDesc {y e : ProbEntry} {l : List ProbEntry} :
    y ∈ insertDesc e l ↔ y = e ∨ y ∈ l := by
  rw [(insertDesc_perm e l).mem_iff, List.mem_cons]

theorem insertDesc_pairwise {e : ProbEntry} {l : List ProbEntry}
    (h : List.Pairwise (fun a b => b.probability ≤ a.probability) l) :
    List.Pairwise (fun a b => b.probability ≤ a.probability) (insertDesc e l) := by
  induction l with
  | nil => simp [insertDesc]
  | cons x xs ih =>
    simp only [insertDesc]
    rcases h with _ | ⟨hx, hxs⟩
    split
    · rename_i hlt
      refine List.Pairwise.cons ?_ (ih hxs)
      intro y hy
      rcases mem_insertDesc.mp hy with rfl | hy
      · exact le_of_lt hlt
      · exact hx y hy
    · rename_i hnlt
      refine List.Pairwise.cons ?_ (List.Pairwise.cons hx hxs)
      intro y hy
      rcases List.mem_cons.mp hy with rfl | hy
      · exact le_of_not_lt hnlt
      · exact le_trans (hx y hy) (le_of_not_lt hnlt)

theorem sortByProbDesc_pairwise (l : List ProbEntry) :
    List.Pairwise (fun a b => b.probability ≤ a.probability) (sortByProbDesc l) := by
  induction l with
  | nil => simp [sortByProbDesc]
  | cons x xs ih =>
    simp only [sortByProbDesc, List.foldr_cons]
    exact insertDesc_pairwise ih

theorem insertDesc_filter (e : ProbEntry) (l : List ProbEntry) (q : ℚ) :
    (insertDesc e l).filter (fun x => x.probability == q) =
      if (e.probability == q) = true then
        e :: l.filter (fun x => x.probability == q)
      else l.filter (fun x => x.probability == q) := by
  induction l with
  | nil =>
    by_cases he : (e.probability == q) = true
    · simp [insertDesc, List.filter, he]
    · simp [insertDesc, List.filter, he]
  | cons x xs ih =>
    simp only [insertDesc]
    split
    · rename_i hlt
      by_cases hx : (x.probability == q) = true
      · have hxq : x.probability = q := by simpa using hx
        by_cases he : (e.probability == q) = true
        · have heq : e.probability = q := by simpa using he
          exact absurd hlt (by rw [heq, ← hxq]; exact lt_irrefl _)
        · simp [List.filter_cons, hx, he, ih]
      · simp [List.filter_cons, hx, ih]
    · by_cases he : (e.probability == q) = true
      · simp [List.filter_cons, he]
      · simp [List.filter_cons, he]

theorem sortByProbDesc_filter (l : List ProbEntry) (q : ℚ) :
    (sortByProbDesc l).filter (fun x => x.probability == q) =
      l.filter (fun x => x.probability == q) := by
  induction l with
  | nil => simp [sortByProbDesc]
  | cons x xs ih =>
    simp only [sortByProbDesc, List.foldr_cons] at *
    rw [insertDesc_filter, List.filter_cons]
    by_cases hx : (x.probability == q) = true
    · simp [hx, ih]
    · simp [hx, ih]

theorem foldl_max_spec (xs : List ℚ) (m : ℚ) :
    (xs.foldl max m = m ∨ xs.foldl max m ∈ xs) ∧
      m ≤ xs.foldl max m ∧ ∀ x ∈ xs, x ≤ xs.foldl max m := by
  induction xs generalizing m with
  | nil => simp
  | cons y ys ih =>
    simp only [List.foldl_cons, List.mem_cons]
    obtain ⟨hmem, hle, hub⟩ := ih (max m y)
    refine ⟨?_, ?_, ?_⟩
    · rcases hmem with h | h
      · rcases max_choice m y with hm | hm
        · exact Or.inl (h.trans hm)
        · exact Or.inr (Or.inl (h.trans hm))
      · exact Or.inr (Or.inr h)
    · exact le_trans (le_max_left m y) hle
    · intro x hx
      rcases hx with rfl | hx
      · exact le_trans (le_max_right m x) hle
      · exact hub x hx

theorem listMax_mem {l : List ℚ} {m : ℚ} (h : listMax l = some m) : m ∈ l := by
  cases l with
  | nil => simp [listMax] at h
  | cons x xs =>
    simp only [listMax, Option.some.injEq] at h
    subst h
    rcases (foldl_max_spec xs x).1 with h | h
    · rw [h]; exact List.mem_cons_self _ _
    · exact List.mem_cons_of_mem _ h

theorem listMax_ub {l : List ℚ} {m : ℚ} (h : listMax l = some m) :
    ∀ x ∈ l, x ≤ m := by
  cases l with
  | nil => simp [listMax] at h
  | cons x xs =>
    simp only [listMax, Option.some.injEq] at h
    subst h
    intro y hy
    rcases List.mem_cons.mp hy with rfl | hy
    · exact (foldl_max_spec xs y).2.1
    · exact (foldl_max_spec xs x).2.2 y hy

theorem mkProbList_map_prob {cls : List Int} :
    ∀ {i : Nat} {ps : List ℚ} {pl : List ProbEntry},
      mkProbList cls i ps = some pl → pl.map (fun e => e.probability) = ps := by
  intro i ps
  induction ps generalizing i with
  | nil => intro pl h; simp [mkProbList] at h; simp [← h]
  | cons p ps ih =>
    intro pl h
    simp only [mkProbList] at h
    rcases hcl : cls.get? i with _ | cl <;> rw [hcl] at h
    · simp at h
    · rcases hrest : mkProbList cls (i + 1) ps with _ | rest <;> rw [hrest] at h
      · simp at h
      · simp only [Option.some.injEq] at h
        subst h
        simp [ih hrest]

theorem mkProbList_device {cls : List Int} :
    ∀ {i : Nat} {ps : List ℚ} {pl : List ProbEntry},
      mkProbList cls i ps = some pl →
      ∀ e ∈ pl, e.device_states = deviceStatesFor e.label := by
  intro i ps
  induction ps generalizing i with
  | nil =>
    intro pl h
    simp only [mkProbList, Option.some.injEq] at h
    subst h
    simp
  | cons p ps ih =>
    intro pl h
    simp only [mkProbList] at h
    rcases hcl : cls.get? i with _ | cl <;> rw [hcl] at h
    · simp at h
    · rcases hrest : mkProbList cls (i + 1) ps with _ | rest <;> rw [hrest] at h
      · simp at h
      · simp only [Option.some.injEq] at h
        subst h
        intro e he
        rcases List.mem_cons.mp he with rfl | he
        · rfl
        · exact ih hrest e he

theorem predict_single_inv {p : NILMPredictor} {d : Record} {r : PredictionResult}
    (h : predict_single p d = some r) :
    ∃ pl, mkProbList p.class_labels 0
        (p.model.predict_proba (buildFeatures p.feature_columns d)) = some pl ∧
      listMax (p.model.predict_proba (buildFeatures p.feature_columns d)) =
        some r.confidence ∧
      r.label = p.model.predict (buildFeatures p.feature_columns d) ∧
      r.device_states = deviceStatesFor r.label ∧
      r.probabilities = sortByProbDesc pl := by
  simp only [predict_single] at h
  rcases hpl : mkProbList p.class_labels 0
      (p.model.predict_proba (buildFeatures p.feature_columns d)) with _ | pl <;>
    rw [hpl] at h
  · simp at h
  · rcases hm : listMax (p.model.predict_proba (buildFeatures p.feature_columns d))
        with _ | conf <;> rw [hm] at h
    · simp at h
    · simp only [Option.some.injEq] at h
      subst h
      exact ⟨pl, rfl, rfl, rfl, rfl, rfl⟩

theorem lookup_eq_none_of_outside (l : Int) (h : l < 0 ∨ 7 < l) :
    List.lookup l LABEL_TO_DEVICE_STATES = none := by
  have h0 : (l == (0 : Int)) = false := by simp only [beq_eq_false_iff_ne, ne_eq]; omega
  have h1 : (l == (1 : Int)) = false := by simp only [beq_eq_false_iff_ne, ne_eq]; omega
  have h2 : (l == (2 : Int)) = false := by simp only [beq_eq_false_iff_ne, ne_eq]; omega
  have h3 : (l == (3 : Int)) = false := by simp only [beq_eq_false_iff_ne, ne_eq]; omega
  have h4 : (l == (4 : Int)) = false := by simp only [beq_eq_false_iff_ne, ne_eq]; omega
  have h5 : (l == (5 : Int)) = false := by simp only [beq_eq_false_iff_ne, ne_eq]; omega
  have h6 : (l == (6 : Int)) = false := by simp only [beq_eq_false_iff_ne, ne_eq]; omega
  have h7 : (l == (7 : Int)) = false := by simp only [beq_eq_false_iff_ne, ne_eq]; omega
  simp [LABEL_TO_DEVICE_STATES, List.lookup, h0, h1, h2, h3, h4, h5, h6, h7]

/-- Claim C1: every label 0-7 decodes by its binary encoding (bit0=bulb, bit1=fan,
bit2=iron) and has exactly one entry in the table. -/
theorem label_table_binary_encoding (l : Int) (h0 : 0 ≤ l) (h7 : l ≤ 7) :
    List.lookup l LABEL_TO_DEVICE_STATES =
      some ⟨l.toNat.testBit 0, l.toNat.testBit 1, l.toNat.testBit 2⟩ ∧
    (LABEL_TO_DEVICE_STATES.filter (fun e => e.1 == l)).length = 1 := by
  interval_cases l <;> decide

theorem label_table_binary_encoding_witness :
    (0 : Int) ≤ 4 ∧ (4 : Int) ≤ 7 ∧
    (List.lookup (4 : Int) LABEL_TO_DEVICE_STATES =
      some ⟨(4 : Int).toNat.testBit 0, (4 : Int).toNat.testBit 1,
            (4 : Int).toNat.testBit 2⟩ ∧
     (LABEL_TO_DEVICE_STATES.filter (fun e => e.1 == (4 : Int))).length = 1) :=
  ⟨by decide, by decide, label_table_binary_encoding 4 (by decide) (by decide)⟩

/-- Claim C3: the feature vector reads each configured feature name in order, and a
missing or null value yields 0.0 at that position (no error: the construction
is total, and an empty record yields the all-zero vector). -/
theorem buildFeatures_defaults (cols : List String) (data : Record) :
    (buildFeatures cols data).length = cols.length ∧
    (∀ i (h : i < cols.length),
      ((List.lookup (cols.get ⟨i, h⟩) data = none ∨
          List.lookup (cols.get ⟨i, h⟩) data = some none) →
        (buildFeatures cols data).get
          ⟨i, by simpa [buildFeatures] using h⟩ = 0) ∧
      (∀ v, List.lookup (cols.get ⟨i, h⟩) data = some (some v) →
        (buildFeatures cols data).get
          ⟨i, by simpa [buildFeatures] using h⟩ = v)) ∧
    buildFeatures cols [] = List.replicate cols.length 0 := by
  refine ⟨by simp [buildFeatures], ?_, ?_⟩
  · intro i h
    constructor
    · intro hmiss
      simp only [buildFeatures, List.get_eq_getElem, List.getElem_map, getFeatureValue]
      simp only [List.get_eq_getElem] at hmiss
      rcases hmiss with hm | hm <;> rw [hm]
    · intro v hv
      simp only [buildFeatures, List.get_eq_getElem, List.getElem_map, getFeatureValue]
      simp only [List.get_eq_getElem] at hv
      rw [hv]
  · simp [buildFeatures, getFeatureValue, List.map_eq_replicate_iff]

theorem buildFeatures_defaults_witness :
    ((buildFeatures ["voltage", "current"] [("voltage", some 230)]).length =
        (["voltage", "current"] : List String).length ∧
      (∀ i (h : i < (["voltage", "current"] : List String).length),
        ((List.lookup ((["voltage", "current"] : List String).get ⟨i, h⟩)
            [("voltage", (some 230 : Option ℚ))] = none ∨
          List.lookup ((["voltage", "current"] : List String).get ⟨i, h⟩)
            [("voltage", (some 230 : Option ℚ))] = some none) →
          (buildFeatures ["voltage", "current"] [("voltage", some 230)]).get
            ⟨i, by simpa [buildFeatures] using h⟩ = 0) ∧
        (∀ v, List.lookup ((["voltage", "current"] : List String).get ⟨i, h⟩)
            [("voltage", (some 230 : Option ℚ))] = some (some v) →
          (buildFeatures ["voltage", "current"] [("voltage", some 230)]).get
            ⟨i, by simpa [buildFeatures] using h⟩ = v)) ∧
      buildFeatures ["voltage", "current"] [] =
        List.replicate (["voltage", "current"] : List String).length 0) ∧
    buildFeatures ["voltage", "current"] [("voltage", some 230)] = [230, 0] :=
  ⟨buildFeatures_defaults ["voltage", "current"] [("voltage", some 230)],
   by decide⟩

/-- Claim C7: a label outside 0-7 defaults to all devices off, in `deviceStatesFor`,
in the per-column defaults of `predict_from_dataframe`, and in every
`predict_single` result it can appear in; no error is raised. -/
theorem unknown_label_all_off (l : Int) (h : l < 0 ∨ 7 < l) :
    deviceStatesFor l = ⟨false, false, false⟩ ∧
    bulbDefault l = false ∧ fanDefault l = false ∧ ironDefault l = false ∧
    ∀ p d r, predict_single p d = some r →
      (r.label = l → r.device_states = ⟨false, false, false⟩) ∧
      ∀ e ∈ r.probabilities, e.label = l →
        e.device_states = ⟨false, false, false⟩ := by
  have hnone := lookup_eq_none_of_outside l h
  have hdev : deviceStatesFor l = ⟨false, false, false⟩ := by
    simp [deviceStatesFor, hnone]
  refine ⟨hdev, by simp [bulbDefault, hnone], by simp [fanDefault, hnone],
    by simp [ironDefault, hnone], ?_⟩
  intro p d r hr
  obtain ⟨pl, hpl, _, _, hds, hprobs⟩ := predict_single_inv hr
  constructor
  · intro hlab
    rw [hds, hlab, hdev]
  · intro e he hlab
    have hmem : e ∈ pl := by
      rw [hprobs] at he
      exact (sortByProbDesc_perm pl).subset he
    have := mkProbList_device hpl e hmem
    rw [this, hlab, hdev]

theorem unknown_label_all_off_witness :
    ((8 : Int) < 0 ∨ 7 < (8 : Int)) ∧
    (deviceStatesFor 8 = ⟨false, false, false⟩ ∧
     bulbDefault 8 = false ∧ fanDefault 8 = false ∧ ironDefault 8 = false ∧
     ∀ p d r, predict_single p d = some r →
       (r.label = 8 → r.device_states = ⟨false, false, false⟩) ∧
       ∀ e ∈ r.probabilities, e.label = 8 →
         e.device_states = ⟨false, false, false⟩) :=
  ⟨by decide, unknown_label_all_off 8 (by decide)⟩

/-- Claim C10: records that agree on every configured feature name receive identical
predictions: other keys have no influence. -/
theorem predict_single_only_reads_features (p : NILMPredictor) (d1 d2 : Record)
    (h : ∀ c ∈ p.feature_columns, List.lookup c d1 = List.lookup c d2) :
    predict_single p d1 = predict_single p d2 := by
  have hb : buildFeatures p.feature_columns d1 = buildFeatures p.feature_columns d2 := by
    simp only [buildFeatures]
    refine List.map_congr_left ?_
    intro c hc
    simp [getFeatureValue, h c hc]
  simp only [predict_single, hb]

theorem predict_single_only_reads_features_witness :
    (∀ c ∈ wPredictor.feature_columns,
      List.lookup c (("noise", (some 999 : Option ℚ)) :: wRecord) =
        List.lookup c wRecord) ∧
    predict_single wPredictor (("noise", some 999) :: wRecord) =
      predict_single wPredictor wRecord :=
  ⟨by decide,
   predict_single_only_reads_features wPredictor
     (("noise", some 999) :: wRecord) wRecord (by decide)⟩

/-- Claim C2: in every `predict_single` result, `confidence` is the maximum of the
probability entries, the probability list is sorted descending, and the sort
is stable: entries of equal probability keep the original class order of the
unsorted list built by the enumeration loop. -/
theorem predict_single_confidence_sorted (p : NILMPredictor) (d : Record)
    (r : PredictionResult) (h : predict_single p d = some r) :
    (∃ e ∈ r.probabilities, e.probability = r.confidence) ∧
    (∀ e ∈ r.probabilities, e.probability ≤ r.confidence) ∧
    List.Pairwise (fun a b => b.probability ≤ a.probability) r.probabilities ∧
    ∃ pl, mkProbList p.class_labels 0
        (p.model.predict_proba (buildFeatures p.feature_columns d)) = some pl ∧
      r.probabilities = sortByProbDesc pl ∧
      ∀ q : ℚ, r.probabilities.filter (fun e => e.probability == q) =
        pl.filter (fun e => e.probability == q) := by
  obtain ⟨pl, hpl, hconf, _, _, hprobs⟩ := predict_single_inv h
  have hmap := mkProbList_map_prob hpl
  have hmem : ∀ e, e ∈ r.probabilities ↔ e ∈ pl := by
    intro e
    rw [hprobs]
    exact (sortByProbDesc_perm pl).mem_iff
  refine ⟨?_, ?_, ?_, pl, hpl, hprobs, ?_⟩
  · have hin : r.confidence ∈ pl.map (fun e => e.probability) := by
      rw [hmap]; exact listMax_mem hconf
    obtain ⟨e, he, heq⟩ := List.mem_map.mp hin
    exact ⟨e, (hmem e).mpr he, heq⟩
  · intro e he
    have : e.probability ∈ pl.map (fun e => e.probability) :=
      List.mem_map.mpr ⟨e, (hmem e).mp he, rfl⟩
    rw [hmap] at this
    exact listMax_ub hconf _ this
  · rw [hprobs]; exact sortByProbDesc_pairwise pl
  · intro q
    rw [hprobs]
    exact sortByProbDesc_filter pl q

theorem predict_single_confidence_sorted_witness :
    predict_single wPredictor wRecord = some wResult ∧
    ((∃ e ∈ wResult.probabilities, e.probability = wResult.confidence) ∧
     (∀ e ∈ wResult.probabilities, e.probability ≤ wResult.confidence) ∧
     List.Pairwise (fun a b => b.probability ≤ a.probability)
       wResult.probabilities ∧
     ∃ pl, mkProbList wPredictor.class_labels 0
         (wPredictor.model.predict_proba
           (buildFeatures wPredictor.feature_columns wRecord)) = some pl ∧
       wResult.probabilities = sortByProbDesc pl ∧
       ∀ q : ℚ, wResult.probabilities.filter (fun e => e.probability == q) =
         pl.filter (fun e => e.probability == q)) :=
  ⟨by decide,
   predict_single_confidence_sorted wPredictor wRecord wResult (by decide)⟩

/-- Claim C9: `predict_single` preserves the model's probability mass, so whenever
the model's class probabilities sum to 1 within tolerance ε, the returned
probability entries also sum to 1 within ε. -/
theorem predict_single_prob_sum (p : NILMPredictor) (d : Record)
    (r : PredictionResult) (ε : ℚ)
    (hsum : |(p.model.predict_proba (buildFeatures p.feature_columns d)).sum - 1| ≤ ε)
    (h : predict_single p d = some r) :
    |(r.probabilities.map (fun e => e.probability)).sum - 1| ≤ ε := by
  obtain ⟨pl, hpl, _, _, _, hprobs⟩ := predict_single_inv h
  have hmap := mkProbList_map_prob hpl
  have hperm : List.Perm (r.probabilities.map (fun e => e.probability))
      (pl.map (fun e => e.probability)) := by
    rw [hprobs]
    exact (sortByProbDesc_perm pl).map _
  rw [hperm.sum_eq, hmap]
  exact hsum

theorem predict_single_prob_sum_witness :
    |((wPredictor.model.predict_proba
        (buildFeatures wPredictor.feature_columns wRecord)).sum) - 1| ≤ 0 ∧
    predict_single wPredictor wRecord = some wResult ∧
    |(wResult.probabilities.map (fun e => e.probability)).sum - 1| ≤ 0 := by
  have h1 : |((wPredictor.model.predict_proba
      (buildFeatures wPredictor.feature_columns wRecord)).sum) - 1| ≤ (0 : ℚ) := by
    norm_num [wPredictor, wModel]
  exact ⟨h1, by decide,
    predict_single_prob_sum wPredictor wRecord wResult 0 h1 (by decide)⟩

theorem mapM_option_eq_some {α β : Type} (f : α → Option β) :
    ∀ (l : List α) (rs : List β),
      l.mapM f = some rs ↔
        (rs.length = l.length ∧
          ∀ i (h1 : i < l.length) (h2 : i < rs.length),
            f (l.get ⟨i, h1⟩) = some (rs.get ⟨i, h2⟩)) := by
  intro l
  rw [show l.mapM f = List.mapM' f l from (List.mapM'_eq_mapM f l).symm] at *
  induction l with
  | nil =>
    intro rs
    constructor
    · intro h
      have : rs = [] := by simpa using h.symm
      subst this
      simp
    · rintro ⟨hlen, _⟩
      have : rs = [] := List.eq_nil_of_length_eq_zero (by simpa using hlen)
      subst this
      simp
  | cons x xs ih =>
    intro rs
    rw [List.mapM'_cons]
    constructor
    · intro h
      simp only [Option.pure_def, Option.bind_eq_bind, Option.bind_eq_some,
        Option.some.injEq] at h
      obtain ⟨y, hy, ys, hys, hrs⟩ := h
      subst hrs
      obtain ⟨hlen, hidx⟩ := (ih ys).mp hys
      refine ⟨by simpa using hlen, ?_⟩
      intro i h1 h2
      cases i with
      | zero => simpa using hy
      | succ j =>
        simpa using hidx j (by simpa using h1) (by simpa using h2)
    · rintro ⟨hlen, hidx⟩
      cases rs with
      | nil => simp at hlen
      | cons y ys =>
        have hy : f x = some y := by
          simpa using hidx 0 (by simp) (by simp)
        have hys : List.mapM' f xs = some ys := by
          refine (ih ys).mpr ⟨by simpa using hlen, ?_⟩
          intro j hj1 hj2
          simpa using hidx (j + 1) (by simpa using hj1) (by simpa using hj2)
        simp [hy, hys]

/-- Claim C4: `predict_batch` returns exactly the per-record results of
`predict_single`, in order, and a failing record makes the whole batch fail
with no partial list. -/
theorem predict_batch_eq_map_single (p : NILMPredictor) (l : List Record) :
    (∀ rs, predict_batch p l = some rs ↔
      (rs.length = l.length ∧
        ∀ i (h1 : i < l.length) (h2 : i < rs.length),
          predict_single p (l.get ⟨i, h1⟩) = some (rs.get ⟨i, h2⟩))) ∧
    ((∃ d ∈ l, predict_single p d = none) → predict_batch p l = none) := by
  refine ⟨fun rs => mapM_option_eq_some (predict_single p) l rs, ?_⟩
  rintro ⟨d, hd, hnone⟩
  rcases h : predict_batch p l with _ | rs
  · rfl
  · exfalso
    obtain ⟨hlen, hidx⟩ :=
      (mapM_option_eq_some (predict_single p) l rs).mp h
    obtain ⟨⟨i, hi⟩, rfl⟩ := List.mem_iff_get.mp hd
    have := hidx i hi (by omega)
    rw [hnone] at this
    exact Option.noConfusion this

theorem predict_batch_eq_map_single_witness :
    (∀ rs, predict_batch wPredictor [wRecord, wRecord] = some rs ↔
      (rs.length = ([wRecord, wRecord] : List Record).length ∧
        ∀ i (h1 : i < ([wRecord, wRecord] : List Record).length)
          (h2 : i < rs.length),
          predict_single wPredictor (([wRecord, wRecord] : List Record).get ⟨i, h1⟩) =
            some (rs.get ⟨i, h2⟩))) ∧
    ((∃ d ∈ ([wRecord, wRecord] : List Record),
        predict_single wPredictor d = none) →
      predict_batch wPredictor [wRecord, wRecord] = none) ∧
    predict_batch wPredictor [wRecord, wRecord] = some [wResult, wResult] :=
  ⟨(predict_batch_eq_map_single wPredictor [wRecord, wRecord]).1,
   (predict_batch_eq_map_single wPredictor [wRecord, wRecord]).2,
   by decide⟩

/-- Claim C8: constructing the predictor on a path that does not exist fails with
the not-found error before any prediction; construction succeeds exactly when
the artifact exists, and then the loaded artifact's fields are stored. -/
theorem init_not_found (fs : FileSystem) (path : String) :
    (fs path = none ↔
      NILMPredictor.init fs path =
        Except.error ("Model file not found: " ++ path)) ∧
    ∀ pr, NILMPredictor.init fs path = Except.ok pr →
      ∃ a, fs path = some a ∧
        pr = { model := a.model, feature_columns := a.feature_columns,
               class_labels := a.class_labels } := by
  constructor
  · constructor
    · intro h
      simp [NILMPredictor.init, load_model, h]
    · intro h
      rcases hfs : fs path with _ | a
      · rfl
      · rw [NILMPredictor.init, load_model, hfs] at h
        exact Except.noConfusion h
  · intro pr h
    rcases hfs : fs path with _ | a
    · rw [NILMPredictor.init, load_model, hfs] at h
      exact Except.noConfusion h
    · rw [NILMPredictor.init, load_model, hfs] at h
      simp only [Except.ok.injEq] at h
      exact ⟨a, rfl, h.symm⟩

theorem init_not_found_witness :
    (emptyFS "artifacts/nilm_rf_model.pkl" = none ↔
      NILMPredictor.init emptyFS "artifacts/nilm_rf_model.pkl" =
        Except.error ("Model file not found: " ++ "artifacts/nilm_rf_model.pkl")) ∧
    ∀ pr, NILMPredictor.init emptyFS "artifacts/nilm_rf_model.pkl" = Except.ok pr →
      ∃ a, emptyFS "artifacts/nilm_rf_model.pkl" = some a ∧
        pr = { model := a.model, feature_columns := a.feature_columns,
               class_labels := a.class_labels } :=
  init_not_found emptyFS "artifacts/nilm_rf_model.pkl"

theorem colIdx_eq_none_iff (c : String) (l : List String) :
    colIdx c l = none ↔ c ∉ l := by
  induction l with
  | nil => simp [colIdx]
  | cons x xs ih =>
    simp only [colIdx, List.mem_cons]
    by_cases hx : (x == c) = true
    · have : x = c := by simpa using hx
      simp [hx, this]
    · have : ¬ x = c := by simpa using hx
      simp [hx, this, ih, Option.map_eq_none']
      tauto

theorem mapM_option_eq_none {α β : Type} (f : α → Option β) (l : List α) :
    l.mapM f = none ↔ ∃ a ∈ l, f a = none := by
  rw [show l.mapM f = List.mapM' f l from (List.mapM'_eq_mapM f l).symm]
  induction l with
  | nil => simp
  | cons x xs ih =>
    rw [List.mapM'_cons]
    constructor
    · intro h
      rcases hx : f x with _ | y
      · exact ⟨x, List.mem_cons_self x xs, hx⟩
      · rw [hx] at h
        rcases hxs : List.mapM' f xs with _ | ys
        · obtain ⟨a, ha, hfa⟩ := ih.mp hxs
          exact ⟨a, List.mem_cons_of_mem x ha, hfa⟩
        · rw [hxs] at h
          simp at h
    · rintro ⟨a, ha, hfa⟩
      rcases List.mem_cons.mp ha with rfl | ha
      · simp [hfa]
      · rcases hx : f x with _ | y
        · simp
        · have := ih.mpr ⟨a, ha, hfa⟩
          simp [this]

theorem getFeatureValue_rowRecord (cols : List String) (row : List Cell)
    (c : String) :
    getFeatureValue (rowRecord cols row) c =
      match colIdx c cols with
      | some j => cellValue0 (row.getD j Cell.na)
      | none => 0 := by
  induction cols generalizing row with
  | nil => simp [rowRecord, getFeatureValue, colIdx, List.lookup]
  | cons x xs ih =>
    cases row with
    | nil =>
      simp only [rowRecord, List.map_nil, List.zip_nil_right, getFeatureValue,
        List.lookup]
      rcases colIdx c (x :: xs) with _ | j <;> simp [List.getD, cellValue0]
    | cons v vs =>
      simp only [rowRecord, List.map_cons, List.zip_cons_cons, getFeatureValue,
        List.lookup, colIdx]
      by_cases hcx : c = x
      · subst hcx
        simp only [beq_self_eq_true]
        cases v <;> simp [cellToOpt, cellValue0, List.getD]
      · have h1 : (c == x) = false := by simpa using hcx
        have h2 : (x == c) = false := by
          simpa using fun h => hcx h.symm
        rw [h1, h2]
        simp only [Bool.false_eq_true, if_neg, ite_false]
        have hi := ih vs
        simp only [rowRecord, getFeatureValue, List.zip] at hi
        rw [hi]
        rcases colIdx c xs with _ | j <;> simp [List.getD]

theorem idxs_map_eq_buildFeatures (allcols : List String) :
    ∀ (cols : List String) (idxs : List Nat),
      (cols.mapM fun c => colIdx c allcols) = some idxs →
      ∀ row : List Cell,
        idxs.map (fun i => cellValue0 (row.getD i Cell.na)) =
          buildFeatures cols (rowRecord allcols row) := by
  intro cols
  induction cols with
  | nil =>
    intro idxs h row
    have : idxs = [] := by
      rw [show List.mapM (fun c => colIdx c allcols) [] =
        List.mapM' (fun c => colIdx c allcols) [] from
        (List.mapM'_eq_mapM _ _).symm] at h
      simpa using h.symm
    subst this
    simp [buildFeatures]
  | cons c cs ih =>
    intro idxs h row
    rw [show List.mapM (fun c => colIdx c allcols) (c :: cs) =
      List.mapM' (fun c => colIdx c allcols) (c :: cs) from
      (List.mapM'_eq_mapM _ _).symm, List.mapM'_cons] at h
    simp only [Option.pure_def, Option.bind_eq_bind, Option.bind_eq_some,
      Option.some.injEq] at h
    obtain ⟨j, hj, js, hjs, hidxs⟩ := h
    rw [show List.mapM' (fun c => colIdx c allcols) cs =
      List.mapM (fun c => colIdx c allcols) cs from List.mapM'_eq_mapM _ _] at hjs
    subst hidxs
    simp only [List.map_cons, buildFeatures, List.map_cons]
    rw [show List.map (getFeatureValue (rowRecord allcols row)) cs =
      buildFeatures cs (rowRecord allcols row) from rfl, ← ih js hjs row,
      getFeatureValue_rowRecord allcols row c, hj]

/-- Claim C5: the tabular path fails only when a configured feature column is
absent from the table (never on account of `NaN` cells), and the feature
matrix it feeds the model is exactly the `predict_single` feature extraction
applied to each row with `NaN` treated as a null value defaulting to 0. -/
theorem predict_from_dataframe_fillna_spec (p : NILMPredictor) (df : DataFrame) :
    (predict_from_dataframe p df = none ↔
      ∃ c ∈ p.feature_columns, c ∉ df.columns) ∧
    ∀ X, featureMatrix df p.feature_columns = some X →
      X = df.rows.map fun row =>
        buildFeatures p.feature_columns (rowRecord df.columns row) := by
  constructor
  · rw [predict_from_dataframe, Option.map_eq_none', featureMatrix,
      Option.map_eq_none', mapM_option_eq_none]
    constructor
    · rintro ⟨c, hc, hnone⟩
      exact ⟨c, hc, (colIdx_eq_none_iff c df.columns).mp hnone⟩
    · rintro ⟨c, hc, hmem⟩
      exact ⟨c, hc, (colIdx_eq_none_iff c df.columns).mpr hmem⟩
  · intro X hX
    rw [featureMatrix] at hX
    rcases hidx : (p.feature_columns.mapM fun c => colIdx c df.columns)
        with _ | idxs
    · rw [hidx] at hX
      exact Option.noConfusion hX
    · rw [hidx] at hX
      simp only [Option.map_some', Option.some.injEq] at hX
      subst hX
      exact List.map_congr_left fun row _ =>
        idxs_map_eq_buildFeatures df.columns p.feature_columns idxs hidx row

theorem predict_from_dataframe_fillna_spec_witness :
    ((predict_from_dataframe wPredictor wDF = none ↔
        ∃ c ∈ wPredictor.feature_columns, c ∉ wDF.columns) ∧
      ∀ X, featureMatrix wDF wPredictor.feature_columns = some X →
        X = wDF.rows.map fun row =>
          buildFeatures wPredictor.feature_columns (rowRecord wDF.columns row)) ∧
    featureMatrix wDF wPredictor.feature_columns = some [[100], [0]] :=
  ⟨predict_from_dataframe_fillna_spec wPredictor wDF, by decide⟩

theorem zipWith_append_chain {α : Type} (F G : α → List Cell) :
    ∀ (rows : List (List Cell)) (xs : List α),
      List.zipWith (fun a b => a ++ F b)
        (List.zipWith (fun a b => a ++ G b) rows xs) xs =
      List.zipWith (fun a b => a ++ (G b ++ F b)) rows xs := by
  intro rows
  induction rows with
  | nil => intro xs; simp
  | cons r rs ih =>
    intro xs
    cases xs with
    | nil => simp
    | cons x xs => simp [ih, List.append_assoc]

/-- Claim C6 (amended): on success the tabular path returns the input table's columns with
`predicted_label`, `bulb`, `fan`, `iron` appended (provided those names are
not already columns), and every output row is the unmodified input row
followed by the four new cells; the input table itself is not modified (the
operation acts on a copy). -/
theorem predict_from_dataframe_appends (p : NILMPredictor) (df out : DataFrame)
    (h1 : "predicted_label" ∉ df.columns) (h2 : "bulb" ∉ df.columns)
    (h3 : "fan" ∉ df.columns) (h4 : "iron" ∉ df.columns)
    (h : predict_from_dataframe p df = some out) :
    out.columns = df.columns ++ ["predicted_label", "bulb", "fan", "iron"] ∧
    out.rows.length = df.rows.length ∧
    ∃ X, featureMatrix df p.feature_columns = some X ∧
      out.rows = List.zipWith (fun (row : List Cell) (lab : Int) => row ++
          [Cell.num (lab : ℚ), Cell.bool (bulbDefault lab),
           Cell.bool (fanDefault lab), Cell.bool (ironDefault lab)])
        df.rows (X.map p.model.predict) := by
  rw [predict_from_dataframe] at h
  rcases hX : featureMatrix df p.feature_columns with _ | X
  · rw [hX] at h
    exact Option.noConfusion h
  · rw [hX] at h
    simp only [Option.map_some', Option.some.injEq] at h
    have hXlen : X.length = df.rows.length := by
      rw [featureMatrix] at hX
      rcases hidx : (p.feature_columns.mapM fun c => colIdx c df.columns)
          with _ | idxs
      · rw [hidx] at hX
        exact Option.noConfusion hX
      · rw [hidx] at hX
        simp only [Option.map_some', Option.some.injEq] at hX
        rw [← hX]
        simp
    have c1 : colIdx "predicted_label" df.columns = none :=
      (colIdx_eq_none_iff _ _).mpr h1
    have c2 : colIdx "bulb" (df.columns ++ ["predicted_label"]) = none := by
      rw [colIdx_eq_none_iff]
      simp [h2]
    have c3 : colIdx "fan" (df.columns ++ ["predicted_label"] ++ ["bulb"]) = none := by
      rw [colIdx_eq_none_iff]
      simp [h3]
    have c4 : colIdx "iron"
        (df.columns ++ ["predicted_label"] ++ ["bulb"] ++ ["fan"]) = none := by
      rw [colIdx_eq_none_iff]
      simp [h4]
    simp only [DataFrame.setCol, c1, c2, c3, c4] at h
    subst h
    refine ⟨by simp, ?_, X, rfl, ?_⟩
    · simp only [List.length_zipWith, List.length_map, hXlen]
      omega
    · simp only [List.zipWith_map_right]
      rw [zipWith_append_chain, zipWith_append_chain, zipWith_append_chain]
      congr 1

theorem predict_from_dataframe_appends_witness :
    ("predicted_label" ∉ wDF.columns ∧ "bulb" ∉ wDF.columns ∧
     "fan" ∉ wDF.columns ∧ "iron" ∉ wDF.columns ∧
     predict_from_dataframe wPredictor wDF = some wOut) ∧
    (wOut.columns = wDF.columns ++ ["predicted_label", "bulb", "fan", "iron"] ∧
     wOut.rows.length = wDF.rows.length ∧
     ∃ X, featureMatrix wDF wPredictor.feature_columns = some X ∧
       wOut.rows = List.zipWith (fun (row : List Cell) (lab : Int) => row ++
           [Cell.num (lab : ℚ), Cell.bool (bulbDefault lab),
            Cell.bool (fanDefault lab), Cell.bool (ironDefault lab)])
         wDF.rows (X.map wPredictor.model.predict)) :=
  ⟨⟨by decide, by decide, by decide, by decide, by decide⟩,
   predict_from_dataframe_appends wPredictor wDF wOut
     (by decide) (by decide) (by decide) (by decide) (by decide)⟩

/-- Claim C6, counterexample to the unamended claim: on a table that already
has a `bulb` column, the device column is overwritten in place, so the output
is not the input table with the four columns appended. -/
theorem predict_from_dataframe_appends_cex :
    predict_from_dataframe cPredictor cDF = some cOut ∧
    cOut.columns ≠ cDF.columns ++ ["predicted_label", "bulb", "fan", "iron"] ∧
    cOut.rows ≠ [[Cell.num 5, Cell.num 3, Cell.bool true, Cell.bool true,
      Cell.bool false]] :=
  ⟨by decide, by decide, by decide⟩
